import Mathlib

/-!
Shallow embedding of the resumable transfer core of `immich-importer`
(Go sources: `internal/downloader/downloader.go`, `internal/importer/importer.go`,
`internal/state/state.go`, `internal/google/oauth.go`, and the two `main`
entry points), together with theorems settling the spec claims.

Machine integers (`int64`, `int`) are embedded as `Int`; byte contents as
`List Nat`.  The local filesystem is an association list from path to
content; the network and the Immich server are oracles supplied per call.
-/

/-- Byte string: content of a local file or of a network stream. -/
abbrev Bytes := List Nat

/-- The local download filesystem: association list from path to file content.
The checkpoint record lives in a separate directory (`appDataDir()` vs
`appDataDir()/downloads`) and is modelled as a separate cell. -/
abbrev FS := List (String × Bytes)

/-- Read a file (`os.Stat` + content): `none` means the file does not exist. -/
def fsRead (fs : FS) (p : String) : Option Bytes :=
  match fs with
  | [] => none
  | (q, c) :: rest => if q = p then some c else fsRead rest p

/-- Replace (or create) the file at path `p` with content `c`. -/
def fsWrite (fs : FS) (p : String) (c : Bytes) : FS :=
  match fs with
  | [] => [(p, c)]
  | (q, d) :: rest => if q = p then (p, c) :: rest else (q, d) :: fsWrite rest p c

/-- Length of the file at `p`; 0 when absent.  `os.Stat(path).Size()`. -/
def fsLen (fs : FS) (p : String) : Int :=
  ((fsRead fs p).getD []).length

/-- `filepath.Join` as used for `filepath.Join(downloadDir, file.Name)`. -/
def joinPath (dir name : String) : String := dir ++ "/" ++ name

/-- The fixed download directory returned by `config.GetDownloadDir()`
(`appDataDir()/downloads`). -/
def downloadDir : String := "downloads"

/-- `state.FileState` (state.go:26-33): one source archive and its download
progress.  `size` and `bytesDownloaded` are Go `int64`. -/
structure FileState where
  driveID : String
  name : String
  size : Int
  downloaded : Bool
  localPath : String
  bytesDownloaded : Int
deriving DecidableEq, Repr

/-- `state.UploadState` (state.go:36-40): the upload ledger.
`totalPhotos`/`uploadedPhotos` are Go `int`. -/
structure UploadState where
  totalPhotos : Int
  uploadedPhotos : Int
  uploadedFiles : List String
deriving DecidableEq, Repr

/-- `state.JobState` (state.go:14-23), restricted to the fields the transfer
core reads or writes (`id`, `serverUrl` and the timestamps are carried along
unchanged and are omitted). -/
structure JobState where
  status : String
  files : List FileState
  uploadState : Option UploadState
  lastError : String
deriving DecidableEq, Repr

/-- Outcome of a core operation: `nil` error, `ctx.Err()`, or a non-nil
error with its message. -/
inductive RunResult where
  | success
  | cancelled
  | failure (msg : String)
deriving DecidableEq, Repr

/-- An HTTP response to `DownloadFileRange` (oauth.go:233-246): its status
code and its body as the successive chunks returned by `resp.Body.Read`
with a 32 KiB buffer; `readErr = true` means the read after the last chunk
returns a non-`io.EOF` error. -/
structure HttpResponse where
  statusCode : Nat
  chunks : List Bytes
  readErr : Bool
deriving DecidableEq, Repr

/-- Environment of one `DownloadFile` call: the response delivered by the
remote store (`none`: the request itself errors), the loop iteration before
which `ctx.Done()` is observed (checked once per iteration of the copy
loop, downloader.go:77-82), and an optional write failure `(k, w)`: the
write of chunk `k` fails after `w` bytes reached the disk. -/
structure DlEnv where
  resp : Option HttpResponse
  cancelBefore : Option Nat
  writeFail : Option (Nat × Nat)
deriving DecidableEq, Repr

/-- Result of `DownloadFile`: the Go error (as `RunResult`), the mutated
`FileState`, the filesystem after the call, and whether a network request
was issued (instrumentation for the no-network-call claims). -/
structure DlOut where
  result : RunResult
  file : FileState
  fs : FS
  netUsed : Bool
deriving DecidableEq, Repr

/-- The copy loop of `DownloadFile` (downloader.go:76-98): before each read
the context is polled; each chunk of `n > 0` bytes is written and
`BytesDownloaded` incremented by `n`; `io.EOF` ends the loop, any other
read error aborts.  Arguments: remaining chunks, iteration index, bytes on
disk so far, current `BytesDownloaded`. -/
def dlLoop (cancelBefore : Option Nat) (writeFail : Option (Nat × Nat)) (readErr : Bool) :
    List Bytes → Nat → Bytes → Int → RunResult × Bytes × Int
  | [], k, content, bd =>
    if cancelBefore = some k then (.cancelled, content, bd)
    else if readErr then (.failure "failed to read", content, bd)
    else (.success, content, bd)
  | c :: rest, k, content, bd =>
    if cancelBefore = some k then (.cancelled, content, bd)
    else if c.length > 0 then
      match writeFail with
      | some (j, w) =>
        if j = k then (.failure "failed to write", content ++ c.take w, bd)
        else dlLoop cancelBefore writeFail readErr rest (k + 1) (content ++ c) (bd + c.length)
      | none => dlLoop cancelBefore writeFail readErr rest (k + 1) (content ++ c) (bd + c.length)
    else dlLoop cancelBefore writeFail readErr rest (k + 1) content bd

/-- The network-and-copy part of `DownloadFile` (downloader.go:49-101),
reached when the local file is not already complete.  `content` is the
current content of `localPath` (`[]` when absent) and `startByte` its
length (`0` when absent); the file is opened with `O_APPEND` when
`startByte > 0` and `O_TRUNC` otherwise. -/
def downloadBody (env : DlEnv) (file : FileState) (fs : FS) (localPath : String)
    (content : Bytes) (startByte : Int) : DlOut :=
  match env.resp with
  | none => ⟨.failure "failed to download", file, fs, true⟩
  | some resp =>
    if resp.statusCode ≠ 200 ∧ resp.statusCode ≠ 206 then
      ⟨.failure "download failed with status", file, fs, true⟩
    else
      let initial := if startByte > 0 then content else []
      match dlLoop env.cancelBefore env.writeFail resp.readErr resp.chunks 0 initial
          file.bytesDownloaded with
      | (.success, written, bd) =>
        ⟨.success, { file with bytesDownloaded := bd, downloaded := true },
          fsWrite fs localPath written, true⟩
      | (r, written, bd) =>
        ⟨r, { file with bytesDownloaded := bd }, fsWrite fs localPath written, true⟩

/-- `Downloader.DownloadFile` (downloader.go:27-102).  The target path is
`filepath.Join(downloadDir, file.Name)`; if the local file already has
`size` bytes (and `size > 0`) the call marks the unit downloaded and
returns without a network request; otherwise it issues a ranged request
from the current length and appends. -/
def DownloadFile (env : DlEnv) (file : FileState) (fs : FS) : DlOut :=
  let localPath := joinPath downloadDir file.name
  let file := { file with localPath := localPath }
  match fsRead fs localPath with
  | some content =>
    let startByte : Int := content.length
    let file := { file with bytesDownloaded := startByte }
    if file.size > 0 ∧ startByte ≥ file.size then
      ⟨.success, { file with downloaded := true }, fs, false⟩
    else
      downloadBody env file fs localPath content startByte
  | none =>
    downloadBody env file fs localPath [] 0

/-- Result of `state.Load` (state.go:54-74): `(nil, nil)` when the record is
missing, `(nil, err)` on a read or unmarshal error, `(&state, nil)` on
success. -/
inductive LoadResult where
  | absent
  | job (js : JobState)
  | err (msg : String)
deriving DecidableEq, Repr

/-- `state.Load` (state.go:54-74) over the checkpoint cell.  `unmarshal`
stands for `json.Unmarshal` into `JobState` (`none`: malformed record);
`cp` is the on-disk record (`none`: `os.ReadFile` fails with not-exist). -/
def Load (unmarshal : Bytes → Option JobState) (cp : Option Bytes) : LoadResult :=
  match cp with
  | none => .absent
  | some data =>
    match unmarshal data with
    | none => .err "unmarshal error"
    | some js => .job js

/-- The CLI resume step (importer.go:324 `jobState, _ := state.Load()`):
the error return of `Load` is discarded, so both a missing and a malformed
record yield a nil `jobState`. -/
def mainLoadedState (r : LoadResult) : Option JobState :=
  match r with
  | .job js => some js
  | .absent => none
  | .err _ => none

/-- `JobState.Save` (state.go:77-96) runs `os.WriteFile(path, data, 0600)`:
the completed write replaces the checkpoint cell with the marshalled
record. -/
def saveRecord (_cp : Option Bytes) (data : Bytes) : Option Bytes :=
  some data

/-- Crash semantics of `os.WriteFile` as invoked by `Save` (state.go:95):
`WriteFile` opens the record path with `O_TRUNC` (discarding the previous
record at once) and then writes `data` sequentially, so a process crash
after `k` bytes leaves exactly `data.take k` on disk.  There is no
temporary file and no rename. -/
def saveCrashed (_cp : Option Bytes) (data : Bytes) (k : Nat) : Option Bytes :=
  some (data.take k)

/-- `JobState.GetDownloadProgress` (state.go:126-146); the `float64`
arithmetic is embedded over `ℚ`.  Returns 0 for an empty file list and
for a zero byte total; otherwise `downloadedBytes / totalBytes * 100`. -/
def GetDownloadProgress (s : JobState) : ℚ :=
  if s.files.length = 0 then 0
  else
    let totalBytes : Int := (s.files.map (fun f => f.size)).sum
    let downloadedBytes : Int :=
      (s.files.map (fun f => if f.downloaded then f.size else f.bytesDownloaded)).sum
    if totalBytes = 0 then 0
    else (downloadedBytes : ℚ) / (totalBytes : ℚ) * 100

/-- `JobState.GetUploadProgress` (state.go:149-154). -/
def GetUploadProgress (s : JobState) : ℚ :=
  match s.uploadState with
  | none => 0
  | some us =>
    if us.totalPhotos = 0 then 0
    else (us.uploadedPhotos : ℚ) / (us.totalPhotos : ℚ) * 100

/-- One member of a zip archive, as enumerated by `zip.OpenReader`
(importer.go:82): its name inside the archive and whether it is a
directory. -/
structure ZipEntry where
  name : String
  isDir : Bool
deriving DecidableEq, Repr

/-- An Immich upload response (importer.go:185-205): its status code and
the `message` field of its JSON body when the body parses to an object
with a string message. -/
structure ImmichResponse where
  statusCode : Nat
  message : Option String
deriving DecidableEq, Repr

/-- Environment of an `ImportFiles` run: the entry list of each archive on
disk (`none`: `zip.OpenReader` fails), per-entry extraction failures
(`f.Open`/`io.ReadAll`, importer.go:129-139), and the Immich response per
`(zipPath, entryName)` upload (`none`: the POST itself errors). -/
structure UploadEnv where
  zips : String → Option (List ZipEntry)
  entryReadErr : String → String → Bool
  upload : String → String → Option ImmichResponse

/-- `sub.isPrefixOf l || contains t sub`: Boolean substring test on
character lists, embedding `strings.Contains`. -/
def listContainsSub (l sub : List Char) : Bool :=
  match l with
  | [] => sub.isEmpty
  | _ :: t => sub.isPrefixOf l || listContainsSub t sub

/-- `strings.Contains(s, sub)`. -/
def strContains (s sub : String) : Bool :=
  listContainsSub s.data sub.data

/-- `filepath.Ext`: scan the name from its end; the extension starts at the
last dot of the last path element (empty when a separator is met first or
no dot exists). -/
def extScan (rev : List Char) (acc : List Char) : String :=
  match rev with
  | [] => ""
  | c :: rest =>
    if c = '/' then ""
    else if c = '.' then String.mk (c :: acc)
    else extScan rest (c :: acc)

/-- `filepath.Ext(name)`. -/
def filepathExt (s : String) : String :=
  extScan s.data.reverse []

/-- `strings.ToLower` restricted to ASCII case folding (sufficient for the
extension sets compared against). -/
def lowerStr (s : String) : String := String.mk (s.data.map Char.toLower)

/-- `strings.HasSuffix`. -/
def hasSuffix (s post : String) : Bool := post.data.isSuffixOf s.data

/-- `isMediaFile` (importer.go:210-219): extension allow-list over the
lower-cased `filepath.Ext` of the entry name. -/
def isMediaFile (name : String) : Bool :=
  let ext := lowerStr (filepathExt name)
  ext ∈ [".jpg", ".jpeg", ".png", ".gif", ".webp", ".heic", ".heif", ".avif",
    ".mp4", ".mov", ".avi", ".mkv", ".webm", ".m4v", ".3gp",
    ".raw", ".cr2", ".nef", ".arw", ".dng", ".orf", ".rw2"]

/-- The composite per-entry key `fmt.Sprintf("%s:%s", zipPath, f.Name)`
(importer.go:99). -/
def fileKey (zipPath name : String) : String := zipPath ++ ":" ++ name

/-- The response handling of `uploadAsset` (importer.go:185-207): `nil` on
201/200; on any other status, a body whose `message` contains
`"duplicate"` is also `nil` (duplicate is success); everything else is an
error. -/
def uploadAsset (resp : Option ImmichResponse) : Option String :=
  match resp with
  | none => some "request failed"
  | some r =>
    if r.statusCode ≠ 201 ∧ r.statusCode ≠ 200 then
      match r.message with
      | some msg =>
        if strContains msg "duplicate" then none
        else some ("upload failed: " ++ msg)
      | none => some "upload failed: status"
    else none

/-- `uploadZipEntry` (importer.go:127-149): extraction failure or the
result of `uploadAsset` for the entry. -/
def uploadZipEntry (env : UploadEnv) (zipPath : String) (e : ZipEntry) : Option String :=
  if env.entryReadErr zipPath e.name then some "read failed"
  else uploadAsset (env.upload zipPath e.name)

/-- Mutable state threaded through `ImportFiles`: the job, the
`uploadedSet` map, the number of context polls so far (one per entry-loop
iteration, for cancellation modelling), and the number of uploads
attempted (instrumentation for the zero-upload claims). -/
structure ImpAcc where
  js : JobState
  uploadedSet : List String
  iter : Nat
  uploads : Nat
deriving DecidableEq, Repr

/-- `jobState.UploadState.TotalPhotos += n` (importer.go:88). -/
def addTotal (js : JobState) (n : Int) : JobState :=
  { js with uploadState :=
      js.uploadState.map (fun us => { us with totalPhotos := us.totalPhotos + n }) }

/-- Lines importer.go:114-116: append the key to `UploadedFiles` and
increment `UploadedPhotos`. -/
def recordUploaded (js : JobState) (key : String) : JobState :=
  { js with uploadState :=
      js.uploadState.map (fun us =>
        { us with uploadedPhotos := us.uploadedPhotos + 1,
                  uploadedFiles := us.uploadedFiles ++ [key] }) }

/-- The per-entry loop of `processZipFile` (importer.go:91-122): poll the
context, skip keys already in `uploadedSet`, otherwise upload; a failed
upload is logged and skipped; a successful (or duplicate) upload records
the key and bumps the counter.  (The periodic `Save` every 100 entries
writes the same in-memory state and is not observable here.) -/
def processEntries (env : UploadEnv) (cancelBefore : Option Nat) (zipPath : String) :
    List ZipEntry → ImpAcc → RunResult × ImpAcc
  | [], acc => (.success, acc)
  | e :: rest, acc =>
    if cancelBefore = some acc.iter then (.cancelled, acc)
    else
      let key := fileKey zipPath e.name
      if key ∈ acc.uploadedSet then
        processEntries env cancelBefore zipPath rest { acc with iter := acc.iter + 1 }
      else
        match uploadZipEntry env zipPath e with
        | some _ =>
          processEntries env cancelBefore zipPath rest
            { acc with iter := acc.iter + 1, uploads := acc.uploads + 1 }
        | none =>
          processEntries env cancelBefore zipPath rest
            { js := recordUploaded acc.js key,
              uploadedSet := acc.uploadedSet ++ [key],
              iter := acc.iter + 1,
              uploads := acc.uploads + 1 }

/-- `processZipFile` (importer.go:73-125): open the archive, filter the
eligible entries (non-directory, media extension), add their count to
`TotalPhotos` — unconditionally — then run the entry loop. -/
def processZipFile (env : UploadEnv) (cancelBefore : Option Nat) (zipPath : String)
    (acc : ImpAcc) : RunResult × ImpAcc :=
  match env.zips zipPath with
  | none => (.failure "failed to open zip", acc)
  | some entries =>
    let photoFiles := entries.filter (fun e => !e.isDir && isMediaFile e.name)
    let acc := { acc with js := addTotal acc.js photoFiles.length }
    processEntries env cancelBefore zipPath photoFiles acc

/-- The per-file loop of `ImportFiles` (importer.go:57-68): skip units not
downloaded or without a local path, process `.zip` archives, propagate
any `processZipFile` error. -/
def importFilesLoop (env : UploadEnv) (cancelBefore : Option Nat) :
    List FileState → ImpAcc → RunResult × ImpAcc
  | [], acc => (.success, acc)
  | f :: rest, acc =>
    if f.downloaded ∧ f.localPath ≠ "" ∧ hasSuffix (lowerStr f.name) ".zip" then
      let r := processZipFile env cancelBefore f.localPath acc
      if r.1 = .success then importFilesLoop env cancelBefore rest r.2 else r
    else importFilesLoop env cancelBefore rest acc

/-- Lines importer.go:44-48: initialize `UploadState` when absent (Go zero
values: `TotalPhotos = 0`, `UploadedPhotos = 0`, empty file list). -/
def initUploadState (js : JobState) : JobState :=
  match js.uploadState with
  | none => { js with uploadState := some ⟨0, 0, []⟩ }
  | some _ => js

/-- `Importer.ImportFiles` (importer.go:42-71): initialize the ledger,
build `uploadedSet` from `UploadedFiles`, and process every downloaded
archive. -/
def ImportFiles (env : UploadEnv) (cancelBefore : Option Nat) (js : JobState) :
    RunResult × ImpAcc :=
  let js := initUploadState js
  let set := (js.uploadState.getD ⟨0, 0, []⟩).uploadedFiles
  importFilesLoop env cancelBefore js.files ⟨js, set, 0, 0⟩

/-- Environment of one coordinator run: the download environment of the
call for file index `i`, the upload environment, the context observation
for the upload phase, and the file index at whose loop head the CLI
coordinator first observes `ctx.Done()`. -/
structure CoordEnv where
  dls : Nat → DlEnv
  up : UploadEnv
  upCancel : Option Nat
  dlCancel : Option Nat

/-- State of a coordinator run: the in-memory job, the download
filesystem, and the successive checkpoint snapshots written by
`jobState.Save()` (most recent last). -/
structure CoordState where
  js : JobState
  fs : FS
  saved : List JobState
deriving DecidableEq, Repr

/-- `jobState.Save()` at the coordinator level: append the current
in-memory job to the persisted history. -/
def doSave (st : CoordState) : CoordState :=
  { st with saved := st.saved ++ [st.js] }

/-- A zero `FileState` (Go zero value), used only for out-of-range index
defaults. -/
def emptyFile : FileState := ⟨"", "", 0, false, "", 0⟩

/-- The download loop of the CLI `runImport` (importer.go:519-540): poll
the context, skip files already downloaded, run `DownloadFile`; on any
non-nil error persist the state and abort — without touching `Status` or
`LastError`. -/
def runDownloadPhase (env : CoordEnv) : List Nat → CoordState → RunResult × CoordState
  | [], st => (.success, st)
  | i :: rest, st =>
    if env.dlCancel = some i then (.cancelled, st)
    else
      let f := st.js.files.getD i emptyFile
      if f.downloaded then runDownloadPhase env rest st
      else
        let out := DownloadFile (env.dls i) f st.fs
        let st1 : CoordState :=
          { st with js := { st.js with files := st.js.files.set i out.file }, fs := out.fs }
        match out.result with
        | .success =>
          let st2 : CoordState :=
            { st1 with js := { st1.js with
                files := st1.js.files.set i { out.file with downloaded := true } } }
          runDownloadPhase env rest (doSave st2)
        | r => (r, doSave st1)

/-- The CLI `runImport` (importer.go:513-565): set status `"downloading"`,
save, download everything; then status `"uploading"`, save, upload; on
success status `"complete"`, save.  A download failure saves and aborts; an
upload failure aborts without saving.  No path assigns status `"error"` or
`LastError`. -/
def runImport (env : CoordEnv) (st0 : CoordState) : RunResult × CoordState :=
  let stA := doSave { st0 with js := { st0.js with status := "downloading" } }
  match runDownloadPhase env (List.range stA.js.files.length) stA with
  | (.success, stB) =>
    let stC := doSave { stB with js := { stB.js with status := "uploading" } }
    match ImportFiles env.up env.upCancel stC.js with
    | (.success, acc) =>
      (.success, doSave { stC with js := { acc.js with status := "complete" } })
    | (r, acc) => (r, { stC with js := acc.js })
  | (r, stB) => (r, stB)

/-- The download loop of the GUI `runImport` (app.go, unnamed/part_001
lines 216-235): no loop-head context poll; on a download error it sets
`LastError` to the message, saves, and aborts — leaving `Status`
untouched. -/
def appDownloadPhase (env : CoordEnv) : List Nat → CoordState → RunResult × CoordState
  | [], st => (.success, st)
  | i :: rest, st =>
    let f := st.js.files.getD i emptyFile
    if f.downloaded then appDownloadPhase env rest st
    else
      let out := DownloadFile (env.dls i) f st.fs
      let st1 : CoordState :=
        { st with js := { st.js with files := st.js.files.set i out.file }, fs := out.fs }
      match out.result with
      | .success =>
        let st2 : CoordState :=
          { st1 with js := { st1.js with
              files := st1.js.files.set i { out.file with downloaded := true } } }
        appDownloadPhase env rest (doSave st2)
      | .cancelled =>
        (.cancelled, doSave { st1 with js := { st1.js with lastError := "context canceled" } })
      | .failure msg =>
        (.failure msg, doSave { st1 with js := { st1.js with lastError := msg } })

/-- The GUI `runImport` (unnamed/part_001 lines 191-252): download phase,
then status `"uploading"` and upload phase; an upload error sets
`LastError` and saves; success sets status `"complete"`.  Status `"error"`
is never assigned. -/
def appRunImport (env : CoordEnv) (st0 : CoordState) : CoordState :=
  match appDownloadPhase env (List.range st0.js.files.length) st0 with
  | (.success, stB) =>
    let stC := doSave { stB with js := { stB.js with status := "uploading" } }
    match ImportFiles env.up env.upCancel stC.js with
    | (.success, acc) =>
      doSave { stC with js := { acc.js with status := "complete" } }
    | (.cancelled, acc) =>
      doSave { stC with js := { acc.js with lastError := "context canceled" } }
    | (.failure msg, acc) =>
      doSave { stC with js := { acc.js with lastError := msg } }
  | (_, stB) => stB

/-- One call into the transfer core, for stating properties of arbitrary
call sequences: `downloadFile` on the unit at index `i`, or a whole
`importAll` run. -/
inductive CoreCall where
  | download (i : Nat) (env : DlEnv)
  | importAll (env : UploadEnv) (cancelBefore : Option Nat)

/-- Apply one core call to the pair (job state, download filesystem). -/
def stepCall (c : CoreCall) (s : JobState × FS) : JobState × FS :=
  match c with
  | .download i env =>
    match s.1.files.get? i with
    | some f =>
      let out := DownloadFile env f s.2
      ({ s.1 with files := s.1.files.set i out.file }, out.fs)
    | none => s
  | .importAll env cb => ((ImportFiles env cb s.1).2.js, s.2)

/-- Apply a sequence of core calls. -/
def runCalls (calls : List CoreCall) (s : JobState × FS) : JobState × FS :=
  calls.foldl (fun s c => stepCall c s) s

/-- The downloader state invariant: no unit claims more transferred bytes
than its local file physically holds (the file length is the
authoritative offset; a fresh unit has counter 0 and no file). -/
def DlInv (s : JobState × FS) : Prop :=
  ∀ f ∈ s.1.files, f.bytesDownloaded ≤ fsLen s.2 (joinPath downloadDir f.name)

instance : DecidablePred DlInv := fun s =>
  inferInstanceAs (Decidable (∀ f ∈ s.1.files, _))



/-- `bytesTransferred` of the unit at index `i` (0 when out of range). -/
def bytesAt (s : JobState × FS) (i : Nat) : Int :=
  (s.1.files.getD i emptyFile).bytesDownloaded

/-- `completedEntries`: the `UploadedPhotos` counter (0 when the ledger is
absent). -/
def photosOf (js : JobState) : Int :=
  (js.uploadState.getD ⟨0, 0, []⟩).uploadedPhotos

/-- `totalEntries`: the `TotalPhotos` counter (0 when the ledger is
absent). -/
def totalOf (js : JobState) : Int :=
  (js.uploadState.getD ⟨0, 0, []⟩).totalPhotos

/-- The `completedKeys` ledger as stored: the `UploadedFiles` list. -/
def keysList (js : JobState) : List String :=
  (js.uploadState.getD ⟨0, 0, []⟩).uploadedFiles

/-- `|completedKeys|`: the number of distinct keys in `UploadedFiles`. -/
def keysCard (js : JobState) : Nat :=
  (keysList js).toFinset.card

/-- Ledger well-formedness: when the ledger exists, `UploadedPhotos`
equals the length of `UploadedFiles` and the list has no duplicates. -/
def LedgerWF (js : JobState) : Prop :=
  match js.uploadState with
  | none => True
  | some us => us.uploadedPhotos = us.uploadedFiles.length ∧ us.uploadedFiles.Nodup

/-- Well-formedness of the in-flight `ImportFiles` accumulator: the ledger
exists, `uploadedSet` is exactly the `UploadedFiles` list, its length is
the counter, and it carries no duplicate key. -/
def AccWF (acc : ImpAcc) : Prop :=
  ∃ us, acc.js.uploadState = some us ∧ acc.uploadedSet = us.uploadedFiles ∧
    us.uploadedPhotos = us.uploadedFiles.length ∧ us.uploadedFiles.Nodup

/-- Every eligible entry of every processable archive of the job already
has its composite key in the ledger (a fully-completed job). -/
def AllEligibleDone (env : UploadEnv) (js : JobState) : Prop :=
  ∀ f ∈ js.files, f.downloaded = true → hasSuffix (lowerStr f.name) ".zip" = true →
    ∀ e ∈ (env.zips f.localPath).getD [], e.isDir = false → isMediaFile e.name = true →
      fileKey f.localPath e.name ∈ keysList js


/-- The C3 scenario archive: 20 media entries and 5 JSON sidecars. -/
def scenarioEntries : List ZipEntry :=
  ((List.range 20).map fun i => ⟨"img" ++ toString i ++ ".jpg", false⟩) ++
    ((List.range 5).map fun i => ⟨"meta" ++ toString i ++ ".json", false⟩)

/-- Upload environment for the C3 scenario: the archive opens to
`scenarioEntries` and every upload succeeds with 201. -/
def scenarioEnv : UploadEnv :=
  ⟨fun p => if p = "downloads/takeout.zip" then some scenarioEntries else none,
    fun _ _ => false, fun _ _ => some ⟨201, none⟩⟩

/-- Job for the C3 scenario: the archive is downloaded, no ledger yet. -/
def scenarioJob : JobState :=
  ⟨"uploading", [⟨"d1", "takeout.zip", 100, true, "downloads/takeout.zip", 100⟩], none, ""⟩

/-! ## Helper lemmas -/

theorem fsRead_fsWrite (fs : FS) (p q : String) (c : Bytes) :
    fsRead (fsWrite fs p c) q = if q = p then some c else fsRead fs q := by
  induction fs with
  | nil =>
    simp only [fsWrite, fsRead]
    by_cases h : p = q
    · subst h; simp
    · rw [if_neg h, if_neg (fun hh => h hh.symm)]
  | cons hd tl ih =>
    obtain ⟨r, d⟩ := hd
    simp only [fsWrite]
    by_cases hrp : r = p
    · subst hrp
      simp only [if_pos rfl, fsRead]
      by_cases hrq : r = q
      · subst hrq; simp
      · rw [if_neg hrq, if_neg (fun hh => hrq hh.symm), if_neg hrq]
    · simp only [if_neg hrp, fsRead, ih]
      by_cases hrq : r = q
      · subst hrq
        rw [if_pos rfl, if_neg (fun hh : r = p => hrp hh), if_pos rfl]
      · rw [if_neg hrq, if_neg hrq]

theorem fsLen_fsWrite (fs : FS) (p q : String) (c : Bytes) :
    fsLen (fsWrite fs p c) q = if q = p then (c.length : Int) else fsLen fs q := by
  unfold fsLen
  rw [fsRead_fsWrite]
  by_cases h : q = p <;> simp [h]

theorem fsLen_of_read_some (fs : FS) (p : String) (c : Bytes)
    (h : fsRead fs p = some c) : fsLen fs p = c.length := by
  simp [fsLen, h]

theorem fsLen_of_read_none (fs : FS) (p : String)
    (h : fsRead fs p = none) : fsLen fs p = 0 := by
  simp [fsLen, h]

theorem fsLen_nonneg (fs : FS) (p : String) : 0 ≤ fsLen fs p := by
  simp [fsLen]

/-- Combined specification of the copy loop: the counter never decreases,
the file only grows by a suffix `t`, and the counter increase is bounded
by the number of bytes actually appended. -/
theorem dlLoop_spec (cb : Option Nat) (pwf : Option (Nat × Nat)) (re : Bool)
    (chunks : List Bytes) (k : Nat) (content : Bytes) (bd : Int) :
    bd ≤ (dlLoop cb pwf re chunks k content bd).2.2 ∧
    ∃ t : Bytes, (dlLoop cb pwf re chunks k content bd).2.1 = content ++ t ∧
      (dlLoop cb pwf re chunks k content bd).2.2 - bd ≤ t.length := by
  induction chunks generalizing k content bd with
  | nil =>
    simp only [dlLoop]
    by_cases hc : cb = some k
    · simp only [if_pos hc]
      exact ⟨le_refl _, [], by simp, by simp⟩
    · simp only [if_neg hc]
      by_cases hr : re = true
      · simp only [hr, if_pos rfl]
        exact ⟨le_refl _, [], by simp, by simp⟩
      · simp only [Bool.not_eq_true] at hr
        simp only [hr, Bool.false_eq_true, if_false]
        exact ⟨le_refl _, [], by simp, by simp⟩
  | cons c rest ih =>
    simp only [dlLoop]
    by_cases hc : cb = some k
    · simp only [if_pos hc]
      exact ⟨le_refl _, [], by simp, by simp⟩
    · simp only [if_neg hc]
      by_cases hlen : c.length > 0
      · simp only [if_pos hlen]
        have step : bd ≤ (dlLoop cb pwf re rest (k + 1) (content ++ c) (bd + c.length)).2.2 ∧
            ∃ t : Bytes,
              (dlLoop cb pwf re rest (k + 1) (content ++ c) (bd + c.length)).2.1 =
                content ++ t ∧
              (dlLoop cb pwf re rest (k + 1) (content ++ c) (bd + c.length)).2.2 - bd ≤
                t.length := by
          obtain ⟨h1, t, h2, h3⟩ := ih (k + 1) (content ++ c) (bd + c.length)
          refine ⟨le_trans (by omega) h1, c ++ t, ?_, ?_⟩
          · rw [h2, List.append_assoc]
          · rw [List.length_append]
            push_cast
            omega
        cases pwf with
        | none => exact step
        | some jw =>
          obtain ⟨j, w⟩ := jw
          by_cases hj : j = k
          · simp only [if_pos hj]
            exact ⟨le_refl _, c.take w, by simp, by simp⟩
          · simp only [if_neg hj]
            exact step
      · simp only [if_neg hlen]
        exact ih (k + 1) content bd

/-- Combined specification of `downloadBody`, under the call-site
conditions that `content` is the current content of `lp` and `startByte`
is its length. -/
theorem downloadBody_spec (env : DlEnv) (f : FileState) (fs : FS) (lp : String)
    (content : Bytes)
    (hlen : fsLen fs lp = (content.length : Int)) :
    f.bytesDownloaded ≤ (downloadBody env f fs lp content content.length).file.bytesDownloaded ∧
    (f.bytesDownloaded ≤ (content.length : Int) →
      (downloadBody env f fs lp content content.length).file.bytesDownloaded ≤
        fsLen (downloadBody env f fs lp content content.length).fs lp) ∧
    (∀ q, fsLen fs q ≤ fsLen (downloadBody env f fs lp content content.length).fs q) ∧
    (downloadBody env f fs lp content content.length).file.name = f.name ∧
    (downloadBody env f fs lp content content.length).file.size = f.size := by
  unfold downloadBody
  cases hresp : env.resp with
  | none =>
    refine ⟨le_refl _, fun h => ?_, fun q => le_refl _, rfl, rfl⟩
    simpa only [hlen] using h
  | some resp =>
    by_cases hst : resp.statusCode ≠ 200 ∧ resp.statusCode ≠ 206
    · simp only [if_pos hst]
      refine ⟨le_refl _, fun h => ?_, fun q => le_refl _, trivial, trivial⟩
      simpa only [hlen] using h
    · simp only [if_neg hst]
      obtain ⟨h1, t, h2, h3⟩ :=
        dlLoop_spec env.cancelBefore env.writeFail resp.readErr resp.chunks 0
          (if (content.length : Int) > 0 then content else []) f.bytesDownloaded
      have hinitlen :
          ((if (content.length : Int) > 0 then content else []).length : Int) =
            content.length := by
        by_cases hpos : (content.length : Int) > 0
        · rw [if_pos hpos]
        · rw [if_neg hpos]
          simp only [List.length_nil, Nat.cast_zero]
          omega
      rcases hdl : dlLoop env.cancelBefore env.writeFail resp.readErr resp.chunks 0
          (if (content.length : Int) > 0 then content else []) f.bytesDownloaded with
        ⟨r, written, bd⟩
      rw [hdl] at h1 h2 h3
      simp only at h1 h2 h3
      have hwlen : (written.length : Int) = ((if (content.length : Int) > 0 then content else []).length : Int) + t.length := by
        rw [h2, List.length_append]
        push_cast
        ring
      have hbd : f.bytesDownloaded ≤ (content.length : Int) → bd ≤ (written.length : Int) := by
        intro hb
        rw [hwlen, hinitlen]
        omega
      have hgrow : ∀ q, fsLen fs q ≤ fsLen (fsWrite fs lp written) q := by
        intro q
        rw [fsLen_fsWrite]
        by_cases hq : q = lp
        · rw [if_pos hq, hq, hlen, hwlen, hinitlen]
          have := t.length.cast_nonneg (α := ℤ)
          omega
        · rw [if_neg hq]
      have hlplen : fsLen (fsWrite fs lp written) lp = (written.length : Int) := by
        rw [fsLen_fsWrite, if_pos rfl]
      cases r with
      | success => exact ⟨h1, fun hb => by rw [hlplen]; exact hbd hb, hgrow, rfl, rfl⟩
      | cancelled => exact ⟨h1, fun hb => by rw [hlplen]; exact hbd hb, hgrow, rfl, rfl⟩
      | failure msg => exact ⟨h1, fun hb => by rw [hlplen]; exact hbd hb, hgrow, rfl, rfl⟩


/-- Combined specification of `DownloadFile` under the downloader
invariant for its unit: the per-unit byte counter never decreases, it
stays bounded by the physical file length, no file in the download
directory shrinks, and the unit identity (`name`, `size`) is preserved. -/
theorem DownloadFile_spec (env : DlEnv) (f : FileState) (fs : FS)
    (h : f.bytesDownloaded ≤ fsLen fs (joinPath downloadDir f.name)) :
    f.bytesDownloaded ≤ (DownloadFile env f fs).file.bytesDownloaded ∧
    (DownloadFile env f fs).file.bytesDownloaded ≤
      fsLen (DownloadFile env f fs).fs (joinPath downloadDir f.name) ∧
    (∀ q, fsLen fs q ≤ fsLen (DownloadFile env f fs).fs q) ∧
    (DownloadFile env f fs).file.name = f.name ∧
    (DownloadFile env f fs).file.size = f.size := by
  simp only [DownloadFile]
  split
  next content hread =>
    have hL : fsLen fs (joinPath downloadDir f.name) = (content.length : Int) :=
      fsLen_of_read_some fs _ content hread
    split
    next hdone =>
      refine ⟨?_, ?_, fun q => le_refl _, rfl, rfl⟩
      · exact hL ▸ h
      · exact hL.ge
    next hdone =>
      obtain ⟨s1, s2, s3, s4, s5⟩ :=
        downloadBody_spec env
          { f with localPath := joinPath downloadDir f.name,
                   bytesDownloaded := (content.length : Int) }
          fs (joinPath downloadDir f.name) content hL
      refine ⟨?_, ?_, s3, s4, s5⟩
      · exact le_trans (by rw [hL] at h; exact h) s1
      · exact s2 (le_refl _)
  next hread =>
    have hL : fsLen fs (joinPath downloadDir f.name) = 0 :=
      fsLen_of_read_none fs _ hread
    have h0 : f.bytesDownloaded ≤ ((([] : Bytes).length : Nat) : Int) := by
      rw [hL] at h
      simpa using h
    obtain ⟨s1, s2, s3, s4, s5⟩ :=
      downloadBody_spec env { f with localPath := joinPath downloadDir f.name }
        fs (joinPath downloadDir f.name) [] (by simpa using hL)
    exact ⟨s1, s2 h0, s3, s4, s5⟩

theorem getD_set_self {α : Type _} (l : List α) (i : Nat) (b d : α) (h : i < l.length) :
    (l.set i b).getD i d = b := by
  induction l generalizing i with
  | nil => simp at h
  | cons a l ih =>
    cases i with
    | zero => rfl
    | succ n => exact ih n (by simpa using h)

theorem getD_set_ne {α : Type _} (l : List α) (i j : Nat) (b d : α) (h : i ≠ j) :
    (l.set i b).getD j d = l.getD j d := by
  induction l generalizing i j with
  | nil => simp [List.set]
  | cons a l ih =>
    cases i with
    | zero =>
      cases j with
      | zero => exact absurd rfl h
      | succ m => rfl
    | succ n =>
      cases j with
      | zero => rfl
      | succ m => exact ih n m (fun hh => h (by rw [hh]))

theorem getD_of_get?_some {α : Type _} (l : List α) (i : Nat) (a d : α)
    (h : l.get? i = some a) : l.getD i d = a := by
  induction l generalizing i with
  | nil => simp [List.get?] at h
  | cons b l ih =>
    cases i with
    | zero =>
      simp only [List.get?, Option.some.injEq] at h
      subst h
      rfl
    | succ n =>
      simp only [List.get?] at h
      exact ih n h

theorem length_pos_of_get?_some {α : Type _} (l : List α) (i : Nat) (a : α)
    (h : l.get? i = some a) : i < l.length := by
  induction l generalizing i with
  | nil => simp [List.get?] at h
  | cons b l ih =>
    cases i with
    | zero => simp
    | succ n =>
      simp only [List.get?] at h
      simpa using ih n h

theorem mem_of_get?_some {α : Type _} (l : List α) (i : Nat) (a : α)
    (h : l.get? i = some a) : a ∈ l := by
  induction l generalizing i with
  | nil => simp [List.get?] at h
  | cons b l ih =>
    cases i with
    | zero =>
      simp only [List.get?] at h
      injection h with h
      simp [h]
    | succ n =>
      simp only [List.get?] at h
      exact List.mem_cons_of_mem b (ih n h)



theorem addTotal_spec (js : JobState) (n : Int) :
    (addTotal js n).files = js.files ∧ photosOf (addTotal js n) = photosOf js ∧
    keysList (addTotal js n) = keysList js := by
  cases h : js.uploadState with
  | none => simp [addTotal, photosOf, keysList, h]
  | some us => simp [addTotal, photosOf, keysList, h]

theorem recordUploaded_spec (js : JobState) (key : String) :
    (recordUploaded js key).files = js.files ∧
    photosOf js ≤ photosOf (recordUploaded js key) ∧
    (∃ t, keysList (recordUploaded js key) = keysList js ++ t) := by
  cases h : js.uploadState with
  | none =>
    refine ⟨rfl, ?_, [], ?_⟩ <;> simp [recordUploaded, photosOf, keysList, h]
  | some us =>
    refine ⟨rfl, ?_, [key], ?_⟩
    · simp only [recordUploaded, photosOf, h, Option.map_some', Option.getD_some]
      omega
    · simp [recordUploaded, keysList, h]

theorem processEntries_cancel (env : UploadEnv) (cb : Option Nat) (zp : String)
    (e : ZipEntry) (rest : List ZipEntry) (acc : ImpAcc) (h : cb = some acc.iter) :
    processEntries env cb zp (e :: rest) acc = (.cancelled, acc) := by
  simp only [processEntries, if_pos h]

theorem processEntries_skip (env : UploadEnv) (cb : Option Nat) (zp : String)
    (e : ZipEntry) (rest : List ZipEntry) (acc : ImpAcc) (hc : ¬cb = some acc.iter)
    (hk : fileKey zp e.name ∈ acc.uploadedSet) :
    processEntries env cb zp (e :: rest) acc =
      processEntries env cb zp rest { acc with iter := acc.iter + 1 } := by
  simp only [processEntries, if_neg hc, if_pos hk]

theorem processEntries_failstep (env : UploadEnv) (cb : Option Nat) (zp : String)
    (e : ZipEntry) (rest : List ZipEntry) (acc : ImpAcc) (msg : String)
    (hc : ¬cb = some acc.iter) (hk : fileKey zp e.name ∉ acc.uploadedSet)
    (hu : uploadZipEntry env zp e = some msg) :
    processEntries env cb zp (e :: rest) acc =
      processEntries env cb zp rest
        { acc with iter := acc.iter + 1, uploads := acc.uploads + 1 } := by
  simp only [processEntries, if_neg hc, if_neg hk, hu]

theorem processEntries_okstep (env : UploadEnv) (cb : Option Nat) (zp : String)
    (e : ZipEntry) (rest : List ZipEntry) (acc : ImpAcc)
    (hc : ¬cb = some acc.iter) (hk : fileKey zp e.name ∉ acc.uploadedSet)
    (hu : uploadZipEntry env zp e = none) :
    processEntries env cb zp (e :: rest) acc =
      processEntries env cb zp rest
        { js := recordUploaded acc.js (fileKey zp e.name),
          uploadedSet := acc.uploadedSet ++ [fileKey zp e.name],
          iter := acc.iter + 1, uploads := acc.uploads + 1 } := by
  simp only [processEntries, if_neg hc, if_neg hk, hu]

/-- Monotonicity facts about the per-entry loop: the file list is
untouched, `UploadedPhotos` never decreases, and `UploadedFiles` is only
extended. -/
theorem processEntries_mono (env : UploadEnv) (cb : Option Nat) (zp : String)
    (entries : List ZipEntry) (acc : ImpAcc) :
    (processEntries env cb zp entries acc).2.js.files = acc.js.files ∧
    photosOf acc.js ≤ photosOf (processEntries env cb zp entries acc).2.js ∧
    ∃ t, keysList (processEntries env cb zp entries acc).2.js = keysList acc.js ++ t := by
  induction entries generalizing acc with
  | nil => exact ⟨rfl, le_refl _, [], by simp [processEntries]⟩
  | cons e rest ih =>
    by_cases hc : cb = some acc.iter
    · rw [processEntries_cancel env cb zp e rest acc hc]
      exact ⟨rfl, le_refl _, [], by simp⟩
    · by_cases hk : fileKey zp e.name ∈ acc.uploadedSet
      · rw [processEntries_skip env cb zp e rest acc hc hk]
        exact ih _
      · cases hu : uploadZipEntry env zp e with
        | some msg =>
          rw [processEntries_failstep env cb zp e rest acc msg hc hk hu]
          exact ih _
        | none =>
          rw [processEntries_okstep env cb zp e rest acc hc hk hu]
          obtain ⟨f1, p1, t1, k1⟩ :=
            ih { js := recordUploaded acc.js (fileKey zp e.name),
                 uploadedSet := acc.uploadedSet ++ [fileKey zp e.name],
                 iter := acc.iter + 1, uploads := acc.uploads + 1 }
          obtain ⟨rf, rp, t0, rk⟩ := recordUploaded_spec acc.js (fileKey zp e.name)
          refine ⟨by rw [f1]; exact rf, le_trans rp p1, t0 ++ t1, ?_⟩
          rw [k1, rk, List.append_assoc]


theorem processZipFile_mono (env : UploadEnv) (cb : Option Nat) (zp : String) (acc : ImpAcc) :
    (processZipFile env cb zp acc).2.js.files = acc.js.files ∧
    photosOf acc.js ≤ photosOf (processZipFile env cb zp acc).2.js ∧
    ∃ t, keysList (processZipFile env cb zp acc).2.js = keysList acc.js ++ t := by
  simp only [processZipFile]
  split
  next heq => exact ⟨rfl, le_refl _, [], by simp⟩
  next entries heq =>
    obtain ⟨f1, p1, t1, k1⟩ :=
      processEntries_mono env cb zp (entries.filter fun e => !e.isDir && isMediaFile e.name)
        { acc with js := addTotal acc.js (entries.filter fun e => !e.isDir && isMediaFile e.name).length }
    obtain ⟨af, ap, ak⟩ :=
      addTotal_spec acc.js (entries.filter fun e => !e.isDir && isMediaFile e.name).length
    refine ⟨by rw [f1]; exact af, ?_, t1, ?_⟩
    · calc photosOf acc.js = photosOf (addTotal acc.js _) := ap.symm
        _ ≤ _ := p1
    · rw [k1]
      simp only [ak]

theorem importFilesLoop_mono (env : UploadEnv) (cb : Option Nat)
    (fl : List FileState) (acc : ImpAcc) :
    (importFilesLoop env cb fl acc).2.js.files = acc.js.files ∧
    photosOf acc.js ≤ photosOf (importFilesLoop env cb fl acc).2.js ∧
    ∃ t, keysList (importFilesLoop env cb fl acc).2.js = keysList acc.js ++ t := by
  induction fl generalizing acc with
  | nil => exact ⟨rfl, le_refl _, [], by simp [importFilesLoop]⟩
  | cons f rest ih =>
    simp only [importFilesLoop]
    split
    next hcond =>
      split
      next hr =>
        obtain ⟨f1, p1, t1, k1⟩ := ih (processZipFile env cb f.localPath acc).2
        obtain ⟨zf, zp1, t0, zk⟩ := processZipFile_mono env cb f.localPath acc
        refine ⟨by rw [f1]; exact zf, le_trans zp1 p1, t0 ++ t1, ?_⟩
        rw [k1, zk, List.append_assoc]
      next hr => exact processZipFile_mono env cb f.localPath acc
    next hcond => exact ih acc

theorem initUploadState_spec (js : JobState) :
    (initUploadState js).files = js.files ∧
    photosOf (initUploadState js) = photosOf js ∧
    keysList (initUploadState js) = keysList js := by
  cases h : js.uploadState with
  | none => refine ⟨?_, ?_, ?_⟩ <;> simp [initUploadState, photosOf, keysList, h]
  | some us => refine ⟨?_, ?_, ?_⟩ <;> simp [initUploadState, photosOf, keysList, h]

/-- Monotonicity of a whole `ImportFiles` run: the file list is untouched,
`UploadedPhotos` never decreases, and `UploadedFiles` is only extended. -/
theorem ImportFiles_mono (env : UploadEnv) (cb : Option Nat) (js : JobState) :
    (ImportFiles env cb js).2.js.files = js.files ∧
    photosOf js ≤ photosOf (ImportFiles env cb js).2.js ∧
    ∃ t, keysList (ImportFiles env cb js).2.js = keysList js ++ t := by
  simp only [ImportFiles]
  obtain ⟨f1, p1, t1, k1⟩ :=
    importFilesLoop_mono env cb (initUploadState js).files
      ⟨initUploadState js, ((initUploadState js).uploadState.getD ⟨0, 0, []⟩).uploadedFiles, 0, 0⟩
  obtain ⟨if1, ip, ik⟩ := initUploadState_spec js
  refine ⟨by rw [f1]; exact if1, ?_, t1, ?_⟩
  · calc photosOf js = photosOf (initUploadState js) := ip.symm
      _ ≤ _ := p1
  · rw [k1, ik]


theorem mem_of_mem_set {α : Type _} (l : List α) (i : Nat) (b a : α)
    (h : a ∈ l.set i b) : a ∈ l ∨ a = b := by
  induction l generalizing i with
  | nil => simp [List.set] at h
  | cons x l ih =>
    cases i with
    | zero =>
      rcases List.mem_cons.mp h with h1 | h2
      · exact Or.inr h1
      · exact Or.inl (List.mem_cons_of_mem x h2)
    | succ n =>
      rcases List.mem_cons.mp h with h1 | h2
      · exact Or.inl (h1 ▸ List.mem_cons_self x l)
      · rcases ih n h2 with h3 | h3
        · exact Or.inl (List.mem_cons_of_mem x h3)
        · exact Or.inr h3

theorem keysCard_mono_of_append (js js1 : JobState)
    (h : ∃ t, keysList js1 = keysList js ++ t) : keysCard js ≤ keysCard js1 := by
  obtain ⟨t, ht⟩ := h
  unfold keysCard
  rw [ht, List.toFinset_append]
  exact Finset.card_le_card Finset.subset_union_left

/-- One core call preserves the downloader invariant and never decreases
any of the three counters. -/
theorem stepCall_spec (c : CoreCall) (s : JobState × FS) (h : DlInv s) :
    DlInv (stepCall c s) ∧
    (∀ i, bytesAt s i ≤ bytesAt (stepCall c s) i) ∧
    photosOf s.1 ≤ photosOf (stepCall c s).1 ∧
    keysCard s.1 ≤ keysCard (stepCall c s).1 := by
  cases c with
  | download i env =>
    simp only [stepCall]
    split
    next f hg =>
      have hmem : f ∈ s.1.files := mem_of_get?_some _ _ _ hg
      have hinv : f.bytesDownloaded ≤ fsLen s.2 (joinPath downloadDir f.name) := h f hmem
      obtain ⟨s1, s2, s3, s4, s5⟩ := DownloadFile_spec env f s.2 hinv
      refine ⟨?_, fun j => ?_, le_refl _, le_refl _⟩
      · intro g hgmem
        rcases mem_of_mem_set _ _ _ _ hgmem with hin | heq
        · exact le_trans (h g hin) (s3 _)
        · subst heq
          rw [s4]
          exact s2
      · by_cases hij : j = i
        · subst hij
          have hlt : j < s.1.files.length := length_pos_of_get?_some _ _ _ hg
          simp only [bytesAt]
          rw [getD_of_get?_some _ _ _ _ hg, getD_set_self _ _ _ _ hlt]
          exact s1
        · simp only [bytesAt]
          rw [getD_set_ne _ i j _ _ (fun hh => hij hh.symm)]
    next hg => exact ⟨h, fun _ => le_refl _, le_refl _, le_refl _⟩
  | importAll env cb =>
    simp only [stepCall]
    obtain ⟨f1, p1, hk⟩ := ImportFiles_mono env cb s.1
    refine ⟨?_, fun j => ?_, p1, keysCard_mono_of_append _ _ hk⟩
    · intro g hg
      simp only at hg
      rw [f1] at hg
      exact h g hg
    · simp only [bytesAt, f1]
      exact le_refl _

/-- Monotonicity over an arbitrary call sequence, with invariant
preservation. -/
theorem runCalls_spec (calls : List CoreCall) (s : JobState × FS) (h : DlInv s) :
    DlInv (runCalls calls s) ∧
    (∀ i, bytesAt s i ≤ bytesAt (runCalls calls s) i) ∧
    photosOf s.1 ≤ photosOf (runCalls calls s).1 ∧
    keysCard s.1 ≤ keysCard (runCalls calls s).1 := by
  induction calls generalizing s with
  | nil => exact ⟨h, fun _ => le_refl _, le_refl _, le_refl _⟩
  | cons c rest ih =>
    obtain ⟨h1, b1, p1, k1⟩ := stepCall_spec c s h
    obtain ⟨h2, b2, p2, k2⟩ := ih (stepCall c s) h1
    have hrun : runCalls (c :: rest) s = runCalls rest (stepCall c s) := by
      simp [runCalls]
    rw [hrun]
    exact ⟨h2, fun i => le_trans (b1 i) (b2 i), le_trans p1 p2, le_trans k1 k2⟩


theorem nodup_append_singleton {α : Type _} (l : List α) (a : α)
    (hn : l.Nodup) (ha : a ∉ l) : (l ++ [a]).Nodup := by
  rw [List.nodup_append]
  exact ⟨hn, List.nodup_singleton a, fun x hx hxa => ha (by
    rcases List.mem_singleton.mp hxa with rfl
    exact hx)⟩

/-- The per-entry loop preserves the accumulator well-formedness (so the
ledger equality `UploadedPhotos = |UploadedFiles|` and freedom from
duplicates hold at every intermediate point of the loop), and only
extends `UploadedFiles`. -/
theorem processEntries_wf (env : UploadEnv) (cb : Option Nat) (zp : String)
    (entries : List ZipEntry) (acc : ImpAcc) (h : AccWF acc) :
    AccWF (processEntries env cb zp entries acc).2 ∧
    ∃ t, keysList (processEntries env cb zp entries acc).2.js = keysList acc.js ++ t := by
  induction entries generalizing acc with
  | nil => exact ⟨h, [], by simp [processEntries]⟩
  | cons e rest ih =>
    by_cases hc : cb = some acc.iter
    · rw [processEntries_cancel env cb zp e rest acc hc]
      exact ⟨h, [], by simp⟩
    · by_cases hk : fileKey zp e.name ∈ acc.uploadedSet
      · rw [processEntries_skip env cb zp e rest acc hc hk]
        exact ih _ h
      · cases hu : uploadZipEntry env zp e with
        | some msg =>
          rw [processEntries_failstep env cb zp e rest acc msg hc hk hu]
          exact ih _ h
        | none =>
          rw [processEntries_okstep env cb zp e rest acc hc hk hu]
          obtain ⟨us, hus, hset, hlen, hnd⟩ := h
          have hknot : fileKey zp e.name ∉ us.uploadedFiles := by
            rw [← hset]
            exact hk
          have hwf1 : AccWF
              { js := recordUploaded acc.js (fileKey zp e.name),
                uploadedSet := acc.uploadedSet ++ [fileKey zp e.name],
                iter := acc.iter + 1, uploads := acc.uploads + 1 } := by
            refine ⟨⟨us.totalPhotos, us.uploadedPhotos + 1,
              us.uploadedFiles ++ [fileKey zp e.name]⟩, ?_, ?_, ?_, ?_⟩
            · simp [recordUploaded, hus]
            · simp [hset]
            · simp only [List.length_append, List.length_singleton]
              push_cast
              omega
            · exact nodup_append_singleton _ _ hnd hknot
          obtain ⟨hwf2, t1, k1⟩ := ih _ hwf1
          refine ⟨hwf2, [fileKey zp e.name] ++ t1, ?_⟩
          rw [k1]
          simp only [keysList, recordUploaded, hus, Option.map_some', Option.getD_some,
            List.append_assoc]

theorem addTotal_wf (acc : ImpAcc) (n : Int) (h : AccWF acc) :
    AccWF { acc with js := addTotal acc.js n } := by
  obtain ⟨us, hus, hset, hlen, hnd⟩ := h
  exact ⟨{ us with totalPhotos := us.totalPhotos + n }, by simp [addTotal, hus], hset, hlen, hnd⟩

theorem processZipFile_wf (env : UploadEnv) (cb : Option Nat) (zp : String)
    (acc : ImpAcc) (h : AccWF acc) :
    AccWF (processZipFile env cb zp acc).2 ∧
    ∃ t, keysList (processZipFile env cb zp acc).2.js = keysList acc.js ++ t := by
  simp only [processZipFile]
  split
  next heq => exact ⟨h, [], by simp⟩
  next entries heq =>
    obtain ⟨hwf, t1, k1⟩ :=
      processEntries_wf env cb zp (entries.filter fun e => !e.isDir && isMediaFile e.name)
        { acc with js := addTotal acc.js (entries.filter fun e => !e.isDir && isMediaFile e.name).length }
        (addTotal_wf acc _ h)
    refine ⟨hwf, t1, ?_⟩
    rw [k1]
    simp only [(addTotal_spec acc.js _).2.2]

theorem importFilesLoop_wf (env : UploadEnv) (cb : Option Nat)
    (fl : List FileState) (acc : ImpAcc) (h : AccWF acc) :
    AccWF (importFilesLoop env cb fl acc).2 ∧
    ∃ t, keysList (importFilesLoop env cb fl acc).2.js = keysList acc.js ++ t := by
  induction fl generalizing acc with
  | nil => exact ⟨h, [], by simp [importFilesLoop]⟩
  | cons f rest ih =>
    simp only [importFilesLoop]
    split
    next hcond =>
      split
      next hr =>
        obtain ⟨hwf1, t1, k1⟩ := processZipFile_wf env cb f.localPath acc h
        obtain ⟨hwf2, t2, k2⟩ := ih _ hwf1
        refine ⟨hwf2, t1 ++ t2, ?_⟩
        rw [k2, k1, List.append_assoc]
      next hr => exact processZipFile_wf env cb f.localPath acc h
    next hcond => exact ih acc h

theorem initUploadState_wf (js : JobState) (h : LedgerWF js) :
    AccWF ⟨initUploadState js,
      ((initUploadState js).uploadState.getD ⟨0, 0, []⟩).uploadedFiles, 0, 0⟩ := by
  cases hu : js.uploadState with
  | none =>
    exact ⟨⟨0, 0, []⟩, by simp [initUploadState, hu], by simp [initUploadState, hu], rfl,
      List.nodup_nil⟩
  | some us =>
    have hw : js.uploadState = some us := hu
    unfold LedgerWF at h
    rw [hu] at h
    exact ⟨us, by simp [initUploadState, hu], by simp [initUploadState, hu], h.1, h.2⟩


/-- When every entry of the list already has its key in `uploadedSet`, the
entry loop performs no upload and leaves job and set untouched. -/
theorem processEntries_all_present (env : UploadEnv) (cb : Option Nat) (zp : String)
    (entries : List ZipEntry) (acc : ImpAcc)
    (h : ∀ e ∈ entries, fileKey zp e.name ∈ acc.uploadedSet) :
    (processEntries env cb zp entries acc).2.js = acc.js ∧
    (processEntries env cb zp entries acc).2.uploadedSet = acc.uploadedSet ∧
    (processEntries env cb zp entries acc).2.uploads = acc.uploads := by
  induction entries generalizing acc with
  | nil => exact ⟨by simp [processEntries], by simp [processEntries], by simp [processEntries]⟩
  | cons e rest ih =>
    by_cases hc : cb = some acc.iter
    · rw [processEntries_cancel env cb zp e rest acc hc]
      exact ⟨rfl, rfl, rfl⟩
    · have hk : fileKey zp e.name ∈ acc.uploadedSet := h e (List.mem_cons_self e rest)
      rw [processEntries_skip env cb zp e rest acc hc hk]
      exact ih { acc with iter := acc.iter + 1 }
        (fun x hx => h x (List.mem_cons_of_mem e hx))

/-- When every eligible entry of the archive already has its key in
`uploadedSet`, processing the archive performs no upload and changes only
`TotalPhotos`. -/
theorem processZipFile_all_present (env : UploadEnv) (cb : Option Nat) (zp : String)
    (acc : ImpAcc)
    (h : ∀ e ∈ (env.zips zp).getD [], e.isDir = false → isMediaFile e.name = true →
      fileKey zp e.name ∈ acc.uploadedSet) :
    keysList (processZipFile env cb zp acc).2.js = keysList acc.js ∧
    photosOf (processZipFile env cb zp acc).2.js = photosOf acc.js ∧
    (processZipFile env cb zp acc).2.uploadedSet = acc.uploadedSet ∧
    (processZipFile env cb zp acc).2.uploads = acc.uploads := by
  simp only [processZipFile]
  split
  next heq => exact ⟨rfl, rfl, rfl, rfl⟩
  next entries heq =>
    have hall : ∀ e ∈ entries.filter (fun e => !e.isDir && isMediaFile e.name),
        fileKey zp e.name ∈ acc.uploadedSet := by
      intro e he
      obtain ⟨hmem, hcond⟩ := List.mem_filter.mp he
      simp only [Bool.and_eq_true, Bool.not_eq_true'] at hcond
      have hin : e ∈ (env.zips zp).getD [] := by
        rw [heq]
        simpa using hmem
      exact h e hin hcond.1 hcond.2
    obtain ⟨hjs, hset, hups⟩ :=
      processEntries_all_present env cb zp (entries.filter fun e => !e.isDir && isMediaFile e.name) { acc with js := addTotal acc.js ((entries.filter fun e => !e.isDir && isMediaFile e.name)).length } hall
    obtain ⟨af, ap, ak⟩ :=
      addTotal_spec acc.js (((entries.filter fun e => !e.isDir && isMediaFile e.name)).length : Int)
    refine ⟨?_, ?_, hset, hups⟩
    · rw [hjs]
      simpa using ak
    · rw [hjs]
      simpa using ap

/-- When every eligible entry of every processable archive already has its
key in `uploadedSet`, the archive loop performs zero uploads and leaves
`UploadedFiles`, `UploadedPhotos` and the set untouched. -/
theorem importFilesLoop_all_present (env : UploadEnv) (cb : Option Nat)
    (fl : List FileState) (acc : ImpAcc)
    (h : ∀ f ∈ fl, f.downloaded = true → hasSuffix (lowerStr f.name) ".zip" = true →
      ∀ e ∈ (env.zips f.localPath).getD [], e.isDir = false → isMediaFile e.name = true →
        fileKey f.localPath e.name ∈ acc.uploadedSet) :
    keysList (importFilesLoop env cb fl acc).2.js = keysList acc.js ∧
    photosOf (importFilesLoop env cb fl acc).2.js = photosOf acc.js ∧
    (importFilesLoop env cb fl acc).2.uploadedSet = acc.uploadedSet ∧
    (importFilesLoop env cb fl acc).2.uploads = acc.uploads := by
  induction fl generalizing acc with
  | nil =>
    exact ⟨by simp [importFilesLoop], by simp [importFilesLoop], by simp [importFilesLoop],
      by simp [importFilesLoop]⟩
  | cons f rest ih =>
    simp only [importFilesLoop]
    split
    next hcond =>
      obtain ⟨hdl, hlp, hsuf⟩ := hcond
      have hzip : ∀ e ∈ (env.zips f.localPath).getD [], e.isDir = false →
          isMediaFile e.name = true → fileKey f.localPath e.name ∈ acc.uploadedSet :=
        h f (List.mem_cons_self f rest) hdl hsuf
      obtain ⟨zk, zp1, zs, zu⟩ := processZipFile_all_present env cb f.localPath acc hzip
      split
      next hr =>
        obtain ⟨k2, p2, s2, u2⟩ := ih (processZipFile env cb f.localPath acc).2
          (by
            intro g hg hgd hgs e he hed hem
            rw [zs]
            exact h g (List.mem_cons_of_mem f hg) hgd hgs e he hed hem)
        exact ⟨by rw [k2, zk], by rw [p2, zp1], by rw [s2, zs], by rw [u2, zu]⟩
      next hr => exact ⟨zk, zp1, zs, zu⟩
    next hcond => exact ih acc (fun g hg => h g (List.mem_cons_of_mem f hg))


/-- `importAll` against a job whose ledger already contains every eligible
entry performs zero uploads and leaves `UploadedFiles` and
`UploadedPhotos` unchanged. -/
theorem ImportFiles_idempotent (env : UploadEnv) (cb : Option Nat) (js : JobState)
    (h : AllEligibleDone env js) :
    (ImportFiles env cb js).2.uploads = 0 ∧
    keysList (ImportFiles env cb js).2.js = keysList js ∧
    photosOf (ImportFiles env cb js).2.js = photosOf js := by
  simp only [ImportFiles]
  have hfiles : (initUploadState js).files = js.files := (initUploadState_spec js).1
  have hkeys : keysList (initUploadState js) = keysList js := (initUploadState_spec js).2.2
  have hphotos : photosOf (initUploadState js) = photosOf js := (initUploadState_spec js).2.1
  have hsetkeys :
      ((initUploadState js).uploadState.getD ⟨0, 0, []⟩).uploadedFiles = keysList js := by
    rw [← hkeys]
    rfl
  obtain ⟨k1, p1, _s1, u1⟩ :=
    importFilesLoop_all_present env cb (initUploadState js).files
      ⟨initUploadState js, ((initUploadState js).uploadState.getD ⟨0, 0, []⟩).uploadedFiles, 0, 0⟩
      (by
        intro f hf hfd hfs e he hed hem
        rw [hfiles] at hf
        show fileKey f.localPath e.name ∈
          ((initUploadState js).uploadState.getD ⟨0, 0, []⟩).uploadedFiles
        rw [hsetkeys]
        exact h f hf hfd hfs e he hed hem)
  refine ⟨u1, ?_, ?_⟩
  · rw [k1]
    simpa using hkeys
  · rw [p1]
    simpa using hphotos

/-- Specification of the already-complete early exit of `DownloadFile`
(downloader.go:42-47): when `size > 0` and the local file already holds at
least `size` bytes, the call succeeds, flags the unit downloaded, and
issues no network request. -/
theorem DownloadFile_skip_complete (env : DlEnv) (f : FileState) (fs : FS)
    (hsz : f.size > 0)
    (hlen : f.size ≤ fsLen fs (joinPath downloadDir f.name)) :
    (DownloadFile env f fs).result = .success ∧
    (DownloadFile env f fs).netUsed = false ∧
    (DownloadFile env f fs).file.downloaded = true ∧
    (DownloadFile env f fs).fs = fs := by
  cases hread : fsRead fs (joinPath downloadDir f.name) with
  | none =>
    exfalso
    rw [fsLen_of_read_none fs _ hread] at hlen
    omega
  | some content =>
    have hge : ((content.length : Nat) : Int) ≥ f.size := by
      rw [← fsLen_of_read_some fs _ content hread]
      exact hlen
    simp only [DownloadFile, hread, if_pos (And.intro hsz hge)]
    exact ⟨trivial, trivial, trivial, trivial⟩


/-! ## Claim theorems -/

/-- C1 (code_bug evaluation): a resumed download (1 of 3 bytes already on
disk, so a ranged request from byte 1 is issued) answered by a
full-content 200 response carrying the whole object from byte 0 is
accepted by `DownloadFile` (downloader.go:57 admits both 200 and 206) and
appended after the existing local bytes, yielding a corrupt 4-byte file —
instead of the `DownloadFailure` the claim requires for any non-206
response on a resumed download. -/
theorem C1_resumed_download_accepts_status_200 :
    (DownloadFile ⟨some ⟨200, [[1, 2, 3]], false⟩, none, none⟩
        ⟨"id1", "a.zip", 3, false, "", 1⟩ [("downloads/a.zip", [7])]).result =
      RunResult.success ∧
    (DownloadFile ⟨some ⟨200, [[1, 2, 3]], false⟩, none, none⟩
        ⟨"id1", "a.zip", 3, false, "", 1⟩ [("downloads/a.zip", [7])]).netUsed = true ∧
    fsRead (DownloadFile ⟨some ⟨200, [[1, 2, 3]], false⟩, none, none⟩
        ⟨"id1", "a.zip", 3, false, "", 1⟩ [("downloads/a.zip", [7])]).fs "downloads/a.zip" =
      some [7, 1, 2, 3] ∧
    (DownloadFile ⟨some ⟨200, [[1, 2, 3]], false⟩, none, none⟩
        ⟨"id1", "a.zip", 3, false, "", 1⟩ [("downloads/a.zip", [7])]).file.downloaded = true := by
  decide

/-- C2 (code_bug evaluation): `Save` (state.go:95) writes the record in
place with `os.WriteFile` — no temporary file, no rename — so a crash
after 1 byte of a 2-byte new record leaves on disk a record equal to
neither the complete previous record nor the complete new one. -/
theorem C2_save_crash_partial_record :
    saveRecord (some [1]) [2, 3] = some [2, 3] ∧
    saveCrashed (some [1]) [2, 3] 1 = some [2] ∧
    saveCrashed (some [1]) [2, 3] 1 ≠ some [1] ∧
    saveCrashed (some [1]) [2, 3] 1 ≠ some [2, 3] := by
  decide

/-- C8 (code_bug evaluation): `Load` on a missing record is absent (not an
error) and on a malformed record is a hard error, as claimed; but the CLI
entry point (importer.go:324, `jobState, _ := state.Load()`) discards the
error, so a corrupt checkpoint produces the same nil job state as a
missing one — corruption IS treated as the absence of a job. -/
theorem C8_corrupt_checkpoint_discarded :
    Load (fun _ => none) none = LoadResult.absent ∧
    Load (fun _ => some ⟨"idle", [], none, ""⟩) none = LoadResult.absent ∧
    Load (fun _ => none) (some [0]) = LoadResult.err "unmarshal error" ∧
    mainLoadedState (Load (fun _ => none) (some [0])) = none ∧
    mainLoadedState (Load (fun _ => none) (some [0])) =
      mainLoadedState (Load (fun _ => none) none) := by
  decide

/-- C4 (code_bug evaluation): a download-phase network failure aborts both
the CLI `runImport` (importer.go:533-535) and the GUI `runImport`
(app.go): the job is persisted with status still `"downloading"`, never
`"error"`; the CLI leaves `lastError` empty, the GUI records the message
but also keeps the phase status. -/
theorem C4_error_status_never_persisted :
    (runImport ⟨fun _ => ⟨none, none, none⟩, ⟨fun _ => none, fun _ _ => false, fun _ _ => none⟩,
        none, none⟩
      ⟨⟨"idle", [⟨"id1", "a.zip", 3, false, "", 0⟩], none, ""⟩, [], []⟩).1 =
      RunResult.failure "failed to download" ∧
    ((runImport ⟨fun _ => ⟨none, none, none⟩, ⟨fun _ => none, fun _ _ => false, fun _ _ => none⟩,
        none, none⟩
      ⟨⟨"idle", [⟨"id1", "a.zip", 3, false, "", 0⟩], none, ""⟩, [], []⟩).2.saved.map
        fun j => (j.status, j.lastError)) =
      [("downloading", ""), ("downloading", "")] ∧
    ((appRunImport ⟨fun _ => ⟨none, none, none⟩, ⟨fun _ => none, fun _ _ => false, fun _ _ => none⟩,
        none, none⟩
      ⟨⟨"downloading", [⟨"id1", "a.zip", 3, false, "", 0⟩], none, ""⟩, [], []⟩).saved.map
        fun j => (j.status, j.lastError)) =
      [("downloading", "failed to download")] ∧
    ((runImport ⟨fun _ => ⟨none, none, none⟩, ⟨fun _ => none, fun _ _ => false, fun _ _ => none⟩,
        none, none⟩
      ⟨⟨"idle", [⟨"id1", "a.zip", 3, false, "", 0⟩], none, ""⟩, [], []⟩).2.saved.all
        fun j => j.status != "error") = true ∧
    ((appRunImport ⟨fun _ => ⟨none, none, none⟩, ⟨fun _ => none, fun _ _ => false, fun _ _ => none⟩,
        none, none⟩
      ⟨⟨"downloading", [⟨"id1", "a.zip", 3, false, "", 0⟩], none, ""⟩, [], []⟩).saved.all
        fun j => j.status != "error") = true := by
  decide


/-- C3 (code_bug evaluation): processing an archive holding 20 media
entries and 5 sidecars yields `TotalPhotos = 20` (the claim's scenario,
never 25) — but re-running `ImportFiles` on the resulting job, as a
resume after a restart does, re-adds the count unconditionally
(importer.go:88) and yields `TotalPhotos = 40` with zero new uploads, so
the count is NOT added exactly once over the lifetime of the job. -/
theorem C3_total_entries_recounted_on_resume :
    totalOf (ImportFiles scenarioEnv none scenarioJob).2.js = 20 ∧
    photosOf (ImportFiles scenarioEnv none scenarioJob).2.js = 20 ∧
    totalOf (ImportFiles scenarioEnv none
        (ImportFiles scenarioEnv none scenarioJob).2.js).2.js = 40 ∧
    (ImportFiles scenarioEnv none (ImportFiles scenarioEnv none scenarioJob).2.js).2.uploads
      = 0 := by
  decide


/-- C5 (confirmed): across any sequence of `downloadFile` and `importAll`
calls from a state satisfying the downloader invariant `DlInv` (no unit
claims more transferred bytes than its local file physically holds — true
of every state the program itself produces, in particular of any freshly
created job), the per-unit `bytesTransferred`, `completedEntries`, and
`|completedKeys|` never decrease, and the invariant is preserved. -/
theorem C5_counters_monotone (calls : List CoreCall) (s : JobState × FS) (h : DlInv s) :
    (∀ i, bytesAt s i ≤ bytesAt (runCalls calls s) i) ∧
    photosOf s.1 ≤ photosOf (runCalls calls s).1 ∧
    keysCard s.1 ≤ keysCard (runCalls calls s).1 ∧
    DlInv (runCalls calls s) := by
  obtain ⟨h1, h2, h3, h4⟩ := runCalls_spec calls s h
  exact ⟨h2, h3, h4, h1⟩

/-- Witness for C5 at a concrete fresh job, one download call (a 200
response streaming 3 bytes) followed by one `importAll` call. -/
theorem C5_counters_monotone_witness :
    DlInv (⟨"idle", [⟨"id1", "a.zip", 3, false, "", 0⟩], none, ""⟩, ([] : FS)) ∧
    ((∀ i, bytesAt (⟨"idle", [⟨"id1", "a.zip", 3, false, "", 0⟩], none, ""⟩, ([] : FS)) i ≤
        bytesAt (runCalls
          [CoreCall.download 0 ⟨some ⟨200, [[1, 2, 3]], false⟩, none, none⟩,
           CoreCall.importAll ⟨fun _ => none, fun _ _ => false, fun _ _ => none⟩ none]
          (⟨"idle", [⟨"id1", "a.zip", 3, false, "", 0⟩], none, ""⟩, ([] : FS))) i) ∧
      photosOf (⟨"idle", [⟨"id1", "a.zip", 3, false, "", 0⟩], none, ""⟩ : JobState) ≤
        photosOf (runCalls
          [CoreCall.download 0 ⟨some ⟨200, [[1, 2, 3]], false⟩, none, none⟩,
           CoreCall.importAll ⟨fun _ => none, fun _ _ => false, fun _ _ => none⟩ none]
          (⟨"idle", [⟨"id1", "a.zip", 3, false, "", 0⟩], none, ""⟩, ([] : FS))).1 ∧
      keysCard (⟨"idle", [⟨"id1", "a.zip", 3, false, "", 0⟩], none, ""⟩ : JobState) ≤
        keysCard (runCalls
          [CoreCall.download 0 ⟨some ⟨200, [[1, 2, 3]], false⟩, none, none⟩,
           CoreCall.importAll ⟨fun _ => none, fun _ _ => false, fun _ _ => none⟩ none]
          (⟨"idle", [⟨"id1", "a.zip", 3, false, "", 0⟩], none, ""⟩, ([] : FS))).1 ∧
      DlInv (runCalls
          [CoreCall.download 0 ⟨some ⟨200, [[1, 2, 3]], false⟩, none, none⟩,
           CoreCall.importAll ⟨fun _ => none, fun _ _ => false, fun _ _ => none⟩ none]
          (⟨"idle", [⟨"id1", "a.zip", 3, false, "", 0⟩], none, ""⟩, ([] : FS)))) :=
  ⟨by decide,
   C5_counters_monotone
     [CoreCall.download 0 ⟨some ⟨200, [[1, 2, 3]], false⟩, none, none⟩,
      CoreCall.importAll ⟨fun _ => none, fun _ _ => false, fun _ _ => none⟩ none]
     (⟨"idle", [⟨"id1", "a.zip", 3, false, "", 0⟩], none, ""⟩, ([] : FS)) (by decide)⟩

/-- A full `ImportFiles` run from a well-formed ledger: well-formedness is
preserved, `completedKeys` only grows, carries no duplicate, and
`completedEntries` equals its cardinality. -/
theorem ImportFiles_wf (env : UploadEnv) (cb : Option Nat) (js : JobState)
    (h : LedgerWF js) :
    LedgerWF (ImportFiles env cb js).2.js ∧
    (∃ t, keysList (ImportFiles env cb js).2.js = keysList js ++ t) ∧
    (keysList (ImportFiles env cb js).2.js).Nodup ∧
    photosOf (ImportFiles env cb js).2.js =
      ((keysList (ImportFiles env cb js).2.js).toFinset.card : Int) := by
  simp only [ImportFiles]
  obtain ⟨hwf, t1, k1⟩ :=
    importFilesLoop_wf env cb (initUploadState js).files
      ⟨initUploadState js, ((initUploadState js).uploadState.getD ⟨0, 0, []⟩).uploadedFiles, 0, 0⟩
      (initUploadState_wf js h)
  obtain ⟨us, hus, hset, hlenn, hnd⟩ := hwf
  have hkeq : keysList (importFilesLoop env cb (initUploadState js).files
      ⟨initUploadState js, ((initUploadState js).uploadState.getD ⟨0, 0, []⟩).uploadedFiles,
        0, 0⟩).2.js = us.uploadedFiles := by
    simp [keysList, hus]
  have hpeq : photosOf (importFilesLoop env cb (initUploadState js).files
      ⟨initUploadState js, ((initUploadState js).uploadState.getD ⟨0, 0, []⟩).uploadedFiles,
        0, 0⟩).2.js = us.uploadedPhotos := by
    simp [photosOf, hus]
  refine ⟨?_, ⟨t1, ?_⟩, ?_, ?_⟩
  · unfold LedgerWF
    rw [hus]
    exact ⟨hlenn, hnd⟩
  · rw [k1, (initUploadState_spec js).2.2]
  · rw [hkeq]
    exact hnd
  · rw [hkeq, hpeq, hlenn, List.toFinset_card_of_nodup hnd]

/-- C6 (confirmed): (a) every single step of the per-entry loop preserves
the accumulator invariant — the ledger exists, `uploadedSet` equals
`UploadedFiles`, `completedEntries = |UploadedFiles|` and the list is
duplicate-free — and only extends the key list, so the invariant holds at
every point during `importAll`; (b) a whole `importAll` run from a
well-formed ledger preserves well-formedness, only grows `completedKeys`,
inserts each key at most once (the list stays duplicate-free), and ends
with `completedEntries = |completedKeys|`. -/
theorem C6_ledger_invariant_holds :
    (∀ (env : UploadEnv) (cb : Option Nat) (zp : String) (entries : List ZipEntry)
      (acc : ImpAcc), AccWF acc →
        AccWF (processEntries env cb zp entries acc).2 ∧
        ∃ t, keysList (processEntries env cb zp entries acc).2.js = keysList acc.js ++ t) ∧
    (∀ (env : UploadEnv) (cb : Option Nat) (js : JobState), LedgerWF js →
      LedgerWF (ImportFiles env cb js).2.js ∧
      (∃ t, keysList (ImportFiles env cb js).2.js = keysList js ++ t) ∧
      (keysList (ImportFiles env cb js).2.js).Nodup ∧
      photosOf (ImportFiles env cb js).2.js =
        ((keysList (ImportFiles env cb js).2.js).toFinset.card : Int)) :=
  ⟨fun env cb zp entries acc h => processEntries_wf env cb zp entries acc h,
   fun env cb js h => ImportFiles_wf env cb js h⟩


/-- Witness for C6: both parts applied to concrete inputs — a singleton
entry list over a fresh well-formed accumulator, and an `ImportFiles` run
over a job whose ledger holds two keys. -/
theorem C6_ledger_invariant_holds_witness :
    AccWF ⟨⟨"uploading", [], some ⟨0, 0, []⟩, ""⟩, [], 0, 0⟩ ∧
    (AccWF (processEntries ⟨fun _ => none, fun _ _ => false, fun _ _ => none⟩ none "z"
        [⟨"p.jpg", false⟩] ⟨⟨"uploading", [], some ⟨0, 0, []⟩, ""⟩, [], 0, 0⟩).2 ∧
      ∃ t, keysList (processEntries ⟨fun _ => none, fun _ _ => false, fun _ _ => none⟩ none "z"
        [⟨"p.jpg", false⟩] ⟨⟨"uploading", [], some ⟨0, 0, []⟩, ""⟩, [], 0, 0⟩).2.js =
        keysList ⟨"uploading", [], some ⟨0, 0, []⟩, ""⟩ ++ t) ∧
    LedgerWF ⟨"uploading", [], some ⟨2, 2, ["a", "b"]⟩, ""⟩ ∧
    (LedgerWF (ImportFiles ⟨fun _ => none, fun _ _ => false, fun _ _ => none⟩ none
        ⟨"uploading", [], some ⟨2, 2, ["a", "b"]⟩, ""⟩).2.js ∧
      (∃ t, keysList (ImportFiles ⟨fun _ => none, fun _ _ => false, fun _ _ => none⟩ none
        ⟨"uploading", [], some ⟨2, 2, ["a", "b"]⟩, ""⟩).2.js =
        keysList ⟨"uploading", [], some ⟨2, 2, ["a", "b"]⟩, ""⟩ ++ t) ∧
      (keysList (ImportFiles ⟨fun _ => none, fun _ _ => false, fun _ _ => none⟩ none
        ⟨"uploading", [], some ⟨2, 2, ["a", "b"]⟩, ""⟩).2.js).Nodup ∧
      photosOf (ImportFiles ⟨fun _ => none, fun _ _ => false, fun _ _ => none⟩ none
        ⟨"uploading", [], some ⟨2, 2, ["a", "b"]⟩, ""⟩).2.js =
        ((keysList (ImportFiles ⟨fun _ => none, fun _ _ => false, fun _ _ => none⟩ none
          ⟨"uploading", [], some ⟨2, 2, ["a", "b"]⟩, ""⟩).2.js).toFinset.card : Int)) := by
  have hA : AccWF ⟨⟨"uploading", [], some ⟨0, 0, []⟩, ""⟩, [], 0, 0⟩ :=
    ⟨⟨0, 0, []⟩, rfl, rfl, by decide, List.nodup_nil⟩
  have hL : LedgerWF ⟨"uploading", [], some ⟨2, 2, ["a", "b"]⟩, ""⟩ := by
    unfold LedgerWF
    exact ⟨by decide, by decide⟩
  exact ⟨hA,
    C6_ledger_invariant_holds.1 ⟨fun _ => none, fun _ _ => false, fun _ _ => none⟩ none "z"
      [⟨"p.jpg", false⟩] ⟨⟨"uploading", [], some ⟨0, 0, []⟩, ""⟩, [], 0, 0⟩ hA,
    hL,
    C6_ledger_invariant_holds.2 ⟨fun _ => none, fun _ _ => false, fun _ _ => none⟩ none
      ⟨"uploading", [], some ⟨2, 2, ["a", "b"]⟩, ""⟩ hL⟩


/-- C7 counterexample: the claim fails at a concrete input on both
conjuncts.  (a) A unit with `expectedSize = 0`, `downloaded` set, local
(empty) file present — "fully materialized" in the claim's own sense
(`downloaded` set, local length ≥ expectedSize) — still issues a network
request, and fails when that request errors, instead of succeeding with
no network call.  (b) `importAll` on a fully-completed job (its one
eligible entry key is in `completedKeys`) performs zero uploads but does
NOT leave the ledger unchanged: `totalEntries` rises from 1 to 2. -/
theorem C7_idempotent_reentry_counterexample :
    (DownloadFile ⟨none, none, none⟩ ⟨"id1", "a.zip", 0, true, "downloads/a.zip", 0⟩
        [("downloads/a.zip", [])]).netUsed = true ∧
    (DownloadFile ⟨none, none, none⟩ ⟨"id1", "a.zip", 0, true, "downloads/a.zip", 0⟩
        [("downloads/a.zip", [])]).result ≠ RunResult.success ∧
    (ImportFiles ⟨fun p => if p = "downloads/a.zip" then some [⟨"p.jpg", false⟩] else none,
        fun _ _ => false, fun _ _ => some ⟨201, none⟩⟩ none
      ⟨"uploading", [⟨"id1", "a.zip", 1, true, "downloads/a.zip", 1⟩],
        some ⟨1, 1, ["downloads/a.zip:p.jpg"]⟩, ""⟩).2.uploads = 0 ∧
    fileKey "downloads/a.zip" "p.jpg" ∈
      keysList ⟨"uploading", [⟨"id1", "a.zip", 1, true, "downloads/a.zip", 1⟩],
        some ⟨1, 1, ["downloads/a.zip:p.jpg"]⟩, ""⟩ ∧
    totalOf ⟨"uploading", [⟨"id1", "a.zip", 1, true, "downloads/a.zip", 1⟩],
        some ⟨1, 1, ["downloads/a.zip:p.jpg"]⟩, ""⟩ = 1 ∧
    totalOf (ImportFiles ⟨fun p => if p = "downloads/a.zip" then some [⟨"p.jpg", false⟩] else none,
        fun _ _ => false, fun _ _ => some ⟨201, none⟩⟩ none
      ⟨"uploading", [⟨"id1", "a.zip", 1, true, "downloads/a.zip", 1⟩],
        some ⟨1, 1, ["downloads/a.zip:p.jpg"]⟩, ""⟩).2.js = 2 := by
  decide

/-- C7 (amended): re-entry is idempotent in this form — (a) `downloadFile`
on a unit whose size is known (`expectedSize > 0`), `downloaded` set, and
whose local file already holds at least `expectedSize` bytes performs no
network call, sets `downloaded = true`, and returns success; (b)
`importAll` on a job every one of whose eligible entry keys is already in
`completedKeys` performs zero uploads and leaves `completedKeys` and
`completedEntries` unchanged (`totalEntries`, however, is re-incremented
per archive — the C3 defect). -/
theorem C7_idempotent_reentry_amended :
    (∀ (env : DlEnv) (f : FileState) (fs : FS),
      f.downloaded = true → f.size > 0 →
      f.size ≤ fsLen fs (joinPath downloadDir f.name) →
      (DownloadFile env f fs).result = RunResult.success ∧
      (DownloadFile env f fs).netUsed = false ∧
      (DownloadFile env f fs).file.downloaded = true) ∧
    (∀ (env : UploadEnv) (cb : Option Nat) (js : JobState),
      AllEligibleDone env js →
      (ImportFiles env cb js).2.uploads = 0 ∧
      keysList (ImportFiles env cb js).2.js = keysList js ∧
      photosOf (ImportFiles env cb js).2.js = photosOf js) := by
  constructor
  · intro env f fs hd hsz hlen
    obtain ⟨r1, r2, r3, _⟩ := DownloadFile_skip_complete env f fs hsz hlen
    exact ⟨r1, r2, r3⟩
  · intro env cb js h
    exact ImportFiles_idempotent env cb js h

/-- Witness for the amended C7 at concrete inputs: a 3-byte unit whose
local file holds 3 bytes, and a one-archive job whose single eligible key
is already recorded. -/
theorem C7_idempotent_reentry_amended_witness :
    ((⟨"id1", "a.zip", 3, true, "downloads/a.zip", 3⟩ : FileState).downloaded = true ∧
      (⟨"id1", "a.zip", 3, true, "downloads/a.zip", 3⟩ : FileState).size > 0 ∧
      (⟨"id1", "a.zip", 3, true, "downloads/a.zip", 3⟩ : FileState).size ≤
        fsLen [("downloads/a.zip", [7, 8, 9])]
          (joinPath downloadDir (⟨"id1", "a.zip", 3, true, "downloads/a.zip", 3⟩ : FileState).name) ∧
      ((DownloadFile ⟨none, none, none⟩ ⟨"id1", "a.zip", 3, true, "downloads/a.zip", 3⟩
          [("downloads/a.zip", [7, 8, 9])]).result = RunResult.success ∧
        (DownloadFile ⟨none, none, none⟩ ⟨"id1", "a.zip", 3, true, "downloads/a.zip", 3⟩
          [("downloads/a.zip", [7, 8, 9])]).netUsed = false ∧
        (DownloadFile ⟨none, none, none⟩ ⟨"id1", "a.zip", 3, true, "downloads/a.zip", 3⟩
          [("downloads/a.zip", [7, 8, 9])]).file.downloaded = true)) ∧
    (AllEligibleDone
        ⟨fun p => if p = "downloads/a.zip" then some [⟨"p.jpg", false⟩] else none,
          fun _ _ => false, fun _ _ => some ⟨201, none⟩⟩
        ⟨"uploading", [⟨"id1", "a.zip", 1, true, "downloads/a.zip", 1⟩],
          some ⟨1, 1, ["downloads/a.zip:p.jpg"]⟩, ""⟩ ∧
      ((ImportFiles
          ⟨fun p => if p = "downloads/a.zip" then some [⟨"p.jpg", false⟩] else none,
            fun _ _ => false, fun _ _ => some ⟨201, none⟩⟩ none
          ⟨"uploading", [⟨"id1", "a.zip", 1, true, "downloads/a.zip", 1⟩],
            some ⟨1, 1, ["downloads/a.zip:p.jpg"]⟩, ""⟩).2.uploads = 0 ∧
        keysList (ImportFiles
          ⟨fun p => if p = "downloads/a.zip" then some [⟨"p.jpg", false⟩] else none,
            fun _ _ => false, fun _ _ => some ⟨201, none⟩⟩ none
          ⟨"uploading", [⟨"id1", "a.zip", 1, true, "downloads/a.zip", 1⟩],
            some ⟨1, 1, ["downloads/a.zip:p.jpg"]⟩, ""⟩).2.js =
          keysList ⟨"uploading", [⟨"id1", "a.zip", 1, true, "downloads/a.zip", 1⟩],
            some ⟨1, 1, ["downloads/a.zip:p.jpg"]⟩, ""⟩ ∧
        photosOf (ImportFiles
          ⟨fun p => if p = "downloads/a.zip" then some [⟨"p.jpg", false⟩] else none,
            fun _ _ => false, fun _ _ => some ⟨201, none⟩⟩ none
          ⟨"uploading", [⟨"id1", "a.zip", 1, true, "downloads/a.zip", 1⟩],
            some ⟨1, 1, ["downloads/a.zip:p.jpg"]⟩, ""⟩).2.js =
          photosOf ⟨"uploading", [⟨"id1", "a.zip", 1, true, "downloads/a.zip", 1⟩],
            some ⟨1, 1, ["downloads/a.zip:p.jpg"]⟩, ""⟩)) := by
  have hAE : AllEligibleDone
      ⟨fun p => if p = "downloads/a.zip" then some [⟨"p.jpg", false⟩] else none,
        fun _ _ => false, fun _ _ => some ⟨201, none⟩⟩
      ⟨"uploading", [⟨"id1", "a.zip", 1, true, "downloads/a.zip", 1⟩],
        some ⟨1, 1, ["downloads/a.zip:p.jpg"]⟩, ""⟩ := by
    intro f hf hfd hfs e he hed hem
    simp only [List.mem_singleton] at hf
    subst hf
    have he2 : e = ⟨"p.jpg", false⟩ := by simpa using he
    subst he2
    decide
  refine ⟨⟨rfl, by decide, by decide,
    C7_idempotent_reentry_amended.1 ⟨none, none, none⟩
      ⟨"id1", "a.zip", 3, true, "downloads/a.zip", 3⟩
      [("downloads/a.zip", [7, 8, 9])] rfl (by decide) (by decide)⟩,
    hAE,
    C7_idempotent_reentry_amended.2
      ⟨fun p => if p = "downloads/a.zip" then some [⟨"p.jpg", false⟩] else none,
        fun _ _ => false, fun _ _ => some ⟨201, none⟩⟩ none
      ⟨"uploading", [⟨"id1", "a.zip", 1, true, "downloads/a.zip", 1⟩],
        some ⟨1, 1, ["downloads/a.zip:p.jpg"]⟩, ""⟩ hAE⟩


/-- C9 (confirmed): when the destination answers an upload with a
duplicate condition — a non-201/200 status whose JSON `message` contains
"duplicate" — `uploadAsset` returns success (nil); in the entry loop the
entry's key is then inserted into `completedKeys`, `completedEntries` is
incremented, and processing proceeds with the remaining entries exactly
as after an ordinary successful upload. -/
theorem C9_duplicate_upload_is_success (env : UploadEnv) (cb : Option Nat) (zp : String)
    (e : ZipEntry) (rest : List ZipEntry) (acc : ImpAcc) (r : ImmichResponse) (msg : String)
    (hc : ¬cb = some acc.iter)
    (hk : fileKey zp e.name ∉ acc.uploadedSet)
    (hre : env.entryReadErr zp e.name = false)
    (hr : env.upload zp e.name = some r)
    (hst : r.statusCode ≠ 201 ∧ r.statusCode ≠ 200)
    (hmsg : r.message = some msg)
    (hdup : strContains msg "duplicate" = true) :
    uploadAsset (env.upload zp e.name) = none ∧
    processEntries env cb zp (e :: rest) acc =
      processEntries env cb zp rest
        { js := recordUploaded acc.js (fileKey zp e.name),
          uploadedSet := acc.uploadedSet ++ [fileKey zp e.name],
          iter := acc.iter + 1, uploads := acc.uploads + 1 } ∧
    (∀ us, acc.js.uploadState = some us →
      (recordUploaded acc.js (fileKey zp e.name)).uploadState =
        some ⟨us.totalPhotos, us.uploadedPhotos + 1,
          us.uploadedFiles ++ [fileKey zp e.name]⟩) := by
  have hua : uploadAsset (env.upload zp e.name) = none := by
    rw [hr]
    simp only [uploadAsset]
    rw [if_pos hst, hmsg]
    simp [hdup]
  have huz : uploadZipEntry env zp e = none := by
    unfold uploadZipEntry
    rw [hre]
    simpa using hua
  refine ⟨hua, processEntries_okstep env cb zp e rest acc hc hk huz, ?_⟩
  intro us hus
  simp [recordUploaded, hus]

/-- Witness for C9: a 409 response with message "asset duplicate found" on
a fresh accumulator. -/
theorem C9_duplicate_upload_is_success_witness :
    (¬(none : Option Nat) = some (⟨⟨"uploading", [], some ⟨1, 0, []⟩, ""⟩, [], 0, 0⟩ : ImpAcc).iter ∧
      fileKey "z" "p.jpg" ∉ (⟨⟨"uploading", [], some ⟨1, 0, []⟩, ""⟩, [], 0, 0⟩ : ImpAcc).uploadedSet ∧
      (⟨fun _ => none, fun _ _ => false, fun _ _ => some ⟨409, some "asset duplicate found"⟩⟩
        : UploadEnv).entryReadErr "z" "p.jpg" = false ∧
      (⟨fun _ => none, fun _ _ => false, fun _ _ => some ⟨409, some "asset duplicate found"⟩⟩
        : UploadEnv).upload "z" "p.jpg" = some ⟨409, some "asset duplicate found"⟩ ∧
      ((409 : Nat) ≠ 201 ∧ (409 : Nat) ≠ 200) ∧
      strContains "asset duplicate found" "duplicate" = true) ∧
    (uploadAsset ((⟨fun _ => none, fun _ _ => false,
        fun _ _ => some ⟨409, some "asset duplicate found"⟩⟩ : UploadEnv).upload "z" "p.jpg") =
      none ∧
      processEntries ⟨fun _ => none, fun _ _ => false,
          fun _ _ => some ⟨409, some "asset duplicate found"⟩⟩ none "z"
        [⟨"p.jpg", false⟩] ⟨⟨"uploading", [], some ⟨1, 0, []⟩, ""⟩, [], 0, 0⟩ =
        processEntries ⟨fun _ => none, fun _ _ => false,
            fun _ _ => some ⟨409, some "asset duplicate found"⟩⟩ none "z" []
          { js := recordUploaded ⟨"uploading", [], some ⟨1, 0, []⟩, ""⟩ (fileKey "z" "p.jpg"),
            uploadedSet := [] ++ [fileKey "z" "p.jpg"], iter := 0 + 1, uploads := 0 + 1 } ∧
      (∀ us, (⟨"uploading", [], some ⟨1, 0, []⟩, ""⟩ : JobState).uploadState = some us →
        (recordUploaded ⟨"uploading", [], some ⟨1, 0, []⟩, ""⟩
            (fileKey "z" "p.jpg")).uploadState =
          some ⟨us.totalPhotos, us.uploadedPhotos + 1,
            us.uploadedFiles ++ [fileKey "z" "p.jpg"]⟩)) :=
  ⟨⟨by decide, by decide, rfl, rfl, by decide, by decide⟩,
   C9_duplicate_upload_is_success
     ⟨fun _ => none, fun _ _ => false, fun _ _ => some ⟨409, some "asset duplicate found"⟩⟩
     none "z" ⟨"p.jpg", false⟩ [] ⟨⟨"uploading", [], some ⟨1, 0, []⟩, ""⟩, [], 0, 0⟩
     ⟨409, some "asset duplicate found"⟩ "asset duplicate found"
     (by decide) (by decide) rfl rfl (by decide) rfl (by decide)⟩


/-- C10 (confirmed): the progress accessors are total and
division-guarded: `GetDownloadProgress` returns 0 for an empty file list
and for a zero summed size, `GetUploadProgress` returns 0 for an absent
ledger and for `totalPhotos = 0`, and in every remaining case the divisor
is provably nonzero. -/
theorem C10_progress_division_guarded (s : JobState) :
    (s.files = [] → GetDownloadProgress s = 0) ∧
    ((s.files.map fun f => f.size).sum = 0 → GetDownloadProgress s = 0) ∧
    (s.uploadState = none → GetUploadProgress s = 0) ∧
    (∀ us, s.uploadState = some us → us.totalPhotos = 0 → GetUploadProgress s = 0) ∧
    ((s.files.map fun f => f.size).sum ≠ 0 →
      ((((s.files.map fun f => f.size).sum : Int) : ℚ) ≠ 0 ∧
        GetDownloadProgress s =
          (((s.files.map fun f => if f.downloaded then f.size else f.bytesDownloaded).sum : Int) : ℚ) /
            (((s.files.map fun f => f.size).sum : Int) : ℚ) * 100)) ∧
    (∀ us, s.uploadState = some us → us.totalPhotos ≠ 0 →
      ((us.totalPhotos : ℚ) ≠ 0 ∧
        GetUploadProgress s = (us.uploadedPhotos : ℚ) / (us.totalPhotos : ℚ) * 100)) := by
  refine ⟨?_, ?_, ?_, ?_, ?_, ?_⟩
  · intro h
    simp [GetDownloadProgress, h]
  · intro h
    simp [GetDownloadProgress, h]
  · intro h
    simp [GetUploadProgress, h]
  · intro us hus hz
    simp [GetUploadProgress, hus, hz]
  · intro h
    have hl : ¬s.files.length = 0 := by
      intro hl0
      apply h
      rw [List.length_eq_zero] at hl0
      rw [hl0]
      simp
    refine ⟨by exact_mod_cast h, ?_⟩
    simp only [GetDownloadProgress, if_neg hl, if_neg h]
  · intro us hus hz
    refine ⟨by exact_mod_cast hz, ?_⟩
    simp [GetUploadProgress, hus, hz]

/-- Witness for C10: the empty job (both guards) and a job with a 4-byte
unit 2 bytes in and a `2 / 4` ledger (both division branches). -/
theorem C10_progress_division_guarded_witness :
    GetDownloadProgress ⟨"idle", [], none, ""⟩ = 0 ∧
    GetUploadProgress ⟨"idle", [], none, ""⟩ = 0 ∧
    ((((([⟨"i", "a.zip", 4, false, "", 2⟩] : List FileState).map fun f => f.size).sum : Int) : ℚ) ≠ 0 ∧
      GetDownloadProgress ⟨"uploading", [⟨"i", "a.zip", 4, false, "", 2⟩],
          some ⟨4, 2, ["k", "l"]⟩, ""⟩ =
        (((([⟨"i", "a.zip", 4, false, "", 2⟩] : List FileState).map
            fun f => if f.downloaded then f.size else f.bytesDownloaded).sum : Int) : ℚ) /
          (((([⟨"i", "a.zip", 4, false, "", 2⟩] : List FileState).map fun f => f.size).sum : Int) : ℚ)
          * 100) ∧
    (((⟨4, 2, ["k", "l"]⟩ : UploadState).totalPhotos : ℚ) ≠ 0 ∧
      GetUploadProgress ⟨"uploading", [⟨"i", "a.zip", 4, false, "", 2⟩],
          some ⟨4, 2, ["k", "l"]⟩, ""⟩ =
        ((⟨4, 2, ["k", "l"]⟩ : UploadState).uploadedPhotos : ℚ) /
          ((⟨4, 2, ["k", "l"]⟩ : UploadState).totalPhotos : ℚ) * 100) :=
  ⟨(C10_progress_division_guarded ⟨"idle", [], none, ""⟩).1 rfl,
   (C10_progress_division_guarded ⟨"idle", [], none, ""⟩).2.2.1 rfl,
   (C10_progress_division_guarded ⟨"uploading", [⟨"i", "a.zip", 4, false, "", 2⟩],
      some ⟨4, 2, ["k", "l"]⟩, ""⟩).2.2.2.2.1 (by decide),
   (C10_progress_division_guarded ⟨"uploading", [⟨"i", "a.zip", 4, false, "", 2⟩],
      some ⟨4, 2, ["k", "l"]⟩, ""⟩).2.2.2.2.2 ⟨4, 2, ["k", "l"]⟩ rfl (by decide)⟩
